import Mathlib

/-!
Shallow embedding of the Advanced Multiprocessor Network Simulator
(`src/app.py`): topology generation (networkx `grid_2d_graph`,
`grid_2d_graph(periodic=True)`, `hypercube_graph`), the Packet state,
the congestion-aware router `adaptive_next_hop`, and the fixed-length
simulation loop, together with proofs of the specified properties.
-/

namespace AMNS

/-- The `Packet` class of `app.py`:
`self.src`, `self.dst`, `self.current = src`, `self.path = [src]`,
`self.completed = False`, `self.blocked_steps = 0`. -/
structure Packet (α : Type) where
  src : α
  dst : α
  current : α
  path : List α
  completed : Bool
  blocked_steps : Nat
deriving DecidableEq

/-- `Packet(src, dst)` constructor: fresh packet at its source. -/
def mkPacket {α : Type} (src dst : α) : Packet α :=
  ⟨src, dst, src, [src], false, 0⟩

/-- Python's `min(x :: xs, key=f)`: folds left keeping the current best,
replacing it only on a strictly smaller key, hence it returns the FIRST
minimizer in enumeration order. -/
def pyMinBy {α : Type} (f : α → Nat) (x : α) (xs : List α) : α :=
  xs.foldl (fun b y => if f y < f b then y else b) x

/-- `sum(1 for p in packet_list if p.current==n and not p.completed)`:
the congestion score of node `v` against packet list `pl`. -/
def congestion {α : Type} [DecidableEq α] (pl : List (Packet α)) (v : α) : Nat :=
  pl.countP (fun p => decide (p.current = v) && !p.completed)

/-- `[n for n in G.neighbors(packet.current) if n not in packet.path]`:
the neighbors of the packet's current node not yet visited by it. -/
def filteredNeighbors {α : Type} [DecidableEq α] (nbrs : α → List α) (p : Packet α) :
    List α :=
  (nbrs p.current).filter (fun v => decide (v ∉ p.path))

/-- `adaptive_next_hop(packet)` from `app.py`.  Returns the (possibly
updated) packet together with the chosen hop: on an empty filtered
neighbor set it increments `blocked_steps` and returns the current node,
otherwise it returns Python's `min` of the filtered neighbors keyed by
the congestion score over the live packet list `pl`. -/
def adaptive_next_hop {α : Type} [DecidableEq α] (nbrs : α → List α)
    (pl : List (Packet α)) (p : Packet α) : Packet α × α :=
  match filteredNeighbors nbrs p with
  | [] => ({ p with blocked_steps := p.blocked_steps + 1 }, p.current)
  | x :: xs => (p, pyMinBy (fun v => congestion pl v) x xs)

/-- One packet update of the simulation loop body
(`if p.completed: continue; if p.current == p.dst: p.completed = True;
continue; next_hop = adaptive_next_hop(p); p.current = next_hop;
p.path.append(next_hop)`), with `q` the live packet list used for
congestion scoring. -/
def routeStep {α : Type} [DecidableEq α] (nbrs : α → List α)
    (q : List (Packet α)) (p : Packet α) : Packet α :=
  if p.completed = true then p
  else if p.current = p.dst then { p with completed := true }
  else
    let r := adaptive_next_hop nbrs q p
    { r.1 with current := r.2, path := r.1.path ++ [r.2] }

/-- In-place update of the `i`-th packet of the list, seeing the
partially updated list (Python mutates `packet_list` elements in order,
and `adaptive_next_hop` reads the same list). -/
def stepOne {α : Type} [DecidableEq α] (nbrs : α → List α)
    (q : List (Packet α)) (i : Nat) : List (Packet α) :=
  match q[i]? with
  | none => q
  | some p => q.set i (routeStep nbrs q p)

/-- One iteration of `for p in packet_list: ...`: every packet updated
once, in index order. -/
def stepAll {α : Type} [DecidableEq α] (nbrs : α → List α)
    (q : List (Packet α)) : List (Packet α) :=
  (List.range q.length).foldl (stepOne nbrs) q

/-- `max_steps = nodes*nodes*2` of `app.py` (`nodes` is the
nodes-per-dimension slider value, whatever the topology kind). -/
def max_steps (nodes : Nat) : Nat := nodes * nodes * 2

/-- The state of the packet list after `t` iterations of the loop. -/
def simulate {α : Type} [DecidableEq α] (nbrs : α → List α)
    (q : List (Packet α)) (t : Nat) : List (Packet α) :=
  (stepAll nbrs)^[t] q

/-- The sequence of per-step snapshots handed to the renderer:
one entry per executed loop iteration. -/
def simTrace {α : Type} [DecidableEq α] (nbrs : α → List α)
    (q : List (Packet α)) (t : Nat) : List (List (Packet α)) :=
  (List.range t).map (fun k => simulate nbrs q (k + 1))

/-- `status = "Completed" if p.completed else "Blocked"` of the summary
report. -/
def statusOf {α : Type} (p : Packet α) : String :=
  if p.completed = true then "Completed" else "Blocked"

/-- Congestion as the spec words it: the count of OTHER (all but the
packet at index `i`) not-yet-completed packets whose current node is `v`. -/
def congestionExceptAt {α : Type} [DecidableEq α] (pl : List (Packet α)) (i : Nat)
    (v : α) : Nat :=
  congestion (pl.eraseIdx i) v

/-! Topologies.

`generate_topology` builds, via networkx:
* Mesh: `nx.grid_2d_graph(n, n)` — nodes `(i, j)` with `i, j < n`;
  edges between vertically then horizontally adjacent grid points, so a
  node's adjacency (insertion) order is up-neighbor, down-neighbor,
  left-neighbor, right-neighbor.
* Torus: `nx.grid_2d_graph(n, n, periodic=True)` — the mesh plus
  wrap-around edges; networkx adds the wrap edges ONLY when the
  dimension size exceeds 2 (for size 2 they would duplicate existing
  edges), first the row wrap for every column, then the column wrap for
  every row.
* Hypercube: `nx.hypercube_graph(n)` — nodes are n-tuples over {0, 1}
  (encoded here as length-n boolean lists), adjacent iff they differ in
  exactly one position.
-/

/-- Neighbor list of `v` in `nx.grid_2d_graph(n, n)`, in networkx
adjacency order. -/
def meshNeighbors (n : Nat) (v : Nat × Nat) : List (Nat × Nat) :=
  (if 1 ≤ v.1 then [(v.1 - 1, v.2)] else []) ++
  (if v.1 + 1 < n then [(v.1 + 1, v.2)] else []) ++
  (if 1 ≤ v.2 then [(v.1, v.2 - 1)] else []) ++
  (if v.2 + 1 < n then [(v.1, v.2 + 1)] else [])

/-- Neighbor list of `v` in `nx.grid_2d_graph(n, n, periodic=True)`:
the mesh neighbors followed by the wrap-around neighbors, which networkx
adds only when `n > 2`. -/
def torusNeighbors (n : Nat) (v : Nat × Nat) : List (Nat × Nat) :=
  meshNeighbors n v ++
  if 2 < n then
    (if v.1 = 0 then [(n - 1, v.2)] else if v.1 = n - 1 then [(0, v.2)] else []) ++
    (if v.2 = 0 then [(v.1, n - 1)] else if v.2 = n - 1 then [(v.1, 0)] else [])
  else []

/-- Node list of the n x n grid (mesh and torus share it). -/
def gridNodes (n : Nat) : List (Nat × Nat) :=
  (List.range n).flatMap (fun i => (List.range n).map (fun j => (i, j)))

/-- Flip the bit at position `i` of a bit-vector. -/
def flipAt : List Bool → Nat → List Bool
  | [], _ => []
  | b :: bs, 0 => (!b) :: bs
  | b :: bs, i + 1 => b :: flipAt bs i

/-- Neighbor list of `x` in `nx.hypercube_graph(n)` (`n = x.length`):
the bit-vectors differing from `x` in exactly one position. -/
def hcNeighbors (x : List Bool) : List (List Bool) :=
  (List.range x.length).map (flipAt x)

/-- Node list of the n-dimensional hypercube: all length-n bit-vectors. -/
def hcNodes : Nat → List (List Bool)
  | 0 => [[]]
  | n + 1 => (hcNodes n).flatMap (fun x => [false :: x, true :: x])

/-- The topology selector of the sidebar. -/
inductive Topology
  | Mesh
  | Torus
  | Hypercube
deriving DecidableEq

/-- The node type of each topology: grid coordinates for mesh and torus,
bit-vectors for the hypercube. -/
def NodeOf : Topology → Type
  | Topology.Mesh => Nat × Nat
  | Topology.Torus => Nat × Nat
  | Topology.Hypercube => List Bool

instance (t : Topology) : DecidableEq (NodeOf t) := by
  cases t <;> (dsimp [NodeOf]; infer_instance)

/-- `generate_topology(topology, n)`: the adjacency (neighbor list)
function of the chosen graph. -/
def generate_topology : (t : Topology) → Nat → (NodeOf t → List (NodeOf t))
  | Topology.Mesh => fun n => meshNeighbors n
  | Topology.Torus => fun n => torusNeighbors n
  | Topology.Hypercube => fun _ => hcNeighbors

/-- `list(G.nodes())` for each topology. -/
def nodesOf : (t : Topology) → Nat → List (NodeOf t)
  | Topology.Mesh => fun n => gridNodes n
  | Topology.Torus => fun n => gridNodes n
  | Topology.Hypercube => fun n => hcNodes n

/-- The whole run: `for step in range(max_steps)` over the chosen
topology, producing one snapshot per executed iteration. -/
def runTrace (t : Topology) (n : Nat) (ps : List (Packet (NodeOf t))) :
    List (List (Packet (NodeOf t))) :=
  simTrace (generate_topology t n) ps (max_steps n)

/-- Final packet list of the run. -/
def runFinal (t : Topology) (n : Nat) (ps : List (Packet (NodeOf t))) :
    List (Packet (NodeOf t)) :=
  simulate (generate_topology t n) ps (max_steps n)

/-- Reachability in a neighbor-function graph. -/
def Reaches {α : Type} (nbrs : α → List α) : α → α → Prop :=
  Relation.ReflTransGen (fun a b => b ∈ nbrs a)

/-- The path-shape invariant of claim C10: the current node is the last
path entry, and the path is a duplicate-free prefix followed by
consecutive copies of its last node (the node at which the packet is
blocked). -/
def PathShape {α : Type} (p : Packet α) : Prop :=
  p.path.getLast? = some p.current ∧
  ∃ d k, d.Nodup ∧ d.getLast? = some p.current ∧
    p.path = d ++ List.replicate k p.current

/-- Strengthened per-packet invariant used to propagate `PathShape`:
when the path already ends in a repeated node the packet is blocked. -/
def PathShapeStrong {α : Type} [DecidableEq α] (nbrs : α → List α) (p : Packet α) :
    Prop :=
  p.path.getLast? = some p.current ∧
  ∃ d k, d.Nodup ∧ d.getLast? = some p.current ∧
    p.path = d ++ List.replicate k p.current ∧
    (0 < k → filteredNeighbors nbrs p = [])

/-- A fresh, valid packet population: every packet sits at its source
with a unit path, incomplete, with distinct endpoints drawn from the
node list. -/
abbrev FreshAt {α : Type} (nodes : List α) (p : Packet α) : Prop :=
  p.path = [p.src] ∧ p.current = p.src ∧ p.completed = false ∧
    p.blocked_steps = 0 ∧ p.src ∈ nodes ∧ p.dst ∈ nodes ∧ p.src ≠ p.dst

/-- The per-packet disjunctive invariant driving the final-iteration
analysis: after `t` steps a packet is completed, or permanently blocked
short of its destination, or still traveling on a duplicate-free path of
length `t + 1`, or it just arrived (current = destination, not yet
marked) on a duplicate-free path of length `t + 1`. -/
def PhaseInv {α : Type} [DecidableEq α] (nbrs : α → List α) (nodes : List α)
    (t : Nat) (p : Packet α) : Prop :=
  p.completed = true ∨
  (p.completed = false ∧ p.current ≠ p.dst ∧ filteredNeighbors nbrs p = []) ∨
  (p.completed = false ∧ p.current ≠ p.dst ∧ p.path.Nodup ∧
    p.path.length = t + 1 ∧ (∀ v ∈ p.path, v ∈ nodes) ∧
    p.path.getLast? = some p.current) ∨
  (p.completed = false ∧ p.current = p.dst ∧ p.path.Nodup ∧
    p.path.length = t + 1 ∧ (∀ v ∈ p.path, v ∈ nodes))

section PyMin

variable {α : Type} (f : α → Nat)

theorem pyMinBy_mem (x : α) (xs : List α) : pyMinBy f x xs ∈ x :: xs := by
  induction xs generalizing x with
  | nil => simp [pyMinBy]
  | cons y ys ih =>
    simp only [pyMinBy, List.foldl_cons] at *
    by_cases hy : f y < f x
    · rw [if_pos hy]
      rcases List.mem_cons.mp (ih y) with h1 | h1 <;> simp [h1]
    · rw [if_neg hy]
      rcases List.mem_cons.mp (ih x) with h1 | h1 <;> simp [h1]

theorem pyMinBy_le (x : α) (xs : List α) :
    ∀ y ∈ x :: xs, f (pyMinBy f x xs) ≤ f y := by
  induction xs generalizing x with
  | nil => simp [pyMinBy]
  | cons y ys ih =>
    intro z hz
    simp only [pyMinBy, List.foldl_cons] at *
    by_cases hy : f y < f x
    · rw [if_pos hy]
      have hyy := ih y y (List.mem_cons_self _ _)
      rcases List.mem_cons.mp hz with h1 | h1
      · subst h1; omega
      · exact ih y z h1
    · rw [if_neg hy]
      have hxx := ih x x (List.mem_cons_self _ _)
      rcases List.mem_cons.mp hz with h1 | h1
      · subst h1; omega
      · rcases List.mem_cons.mp h1 with h2 | h2
        · subst h2; omega
        · exact ih x z (List.mem_cons_of_mem _ h2)

theorem pyMinBy_eq_or_lt (x : α) (xs : List α) :
    pyMinBy f x xs = x ∨ f (pyMinBy f x xs) < f x := by
  induction xs generalizing x with
  | nil => simp [pyMinBy]
  | cons y ys ih =>
    simp only [pyMinBy, List.foldl_cons] at *
    by_cases hy : f y < f x
    · rcases ih y with h | h
      · right; rw [if_pos hy, h]; exact hy
      · right; rw [if_pos hy]; omega
    · rw [if_neg hy]; exact ih x

/-- Python's `min` returns the first minimizer: scanning the list for the
first element whose key is no larger than the minimum finds exactly the
returned element. -/
theorem pyMinBy_first (x : α) (xs : List α) :
    (x :: xs).find? (fun y => f y ≤ f (pyMinBy f x xs)) = some (pyMinBy f x xs) := by
  induction xs generalizing x with
  | nil => simp [pyMinBy]
  | cons y ys ih =>
    have hstep : pyMinBy f x (y :: ys) = pyMinBy f (if f y < f x then y else x) ys := by
      simp [pyMinBy]
    by_cases hy : f y < f x
    · rw [if_pos hy] at hstep
      rw [hstep]
      have hle : f (pyMinBy f y ys) ≤ f y :=
        pyMinBy_le f y ys y (List.mem_cons_self _ _)
      have hxn : ¬ f x ≤ f (pyMinBy f y ys) := by omega
      rw [List.find?_cons_of_neg _ (by simpa using hxn)]
      exact ih y
    · rw [if_neg hy] at hstep
      rw [hstep]
      have hle : f (pyMinBy f x ys) ≤ f x :=
        pyMinBy_le f x ys x (List.mem_cons_self _ _)
      by_cases hx : f x ≤ f (pyMinBy f x ys)
      · have heq : pyMinBy f x ys = x := by
          rcases pyMinBy_eq_or_lt f x ys with h | h
          · exact h
          · omega
        rw [heq]
        rw [List.find?_cons_of_pos]
        simp
      · rw [List.find?_cons_of_neg _ (by simpa using hx)]
        have hyn : ¬ f y ≤ f (pyMinBy f x ys) := by omega
        rw [List.find?_cons_of_neg _ (by simpa using hyn)]
        have h := ih x
        rwa [List.find?_cons_of_neg _ (by simpa using hx)] at h

/-- If two key functions agree on the list, Python's `min` agrees. -/
theorem pyMinBy_congr (g : α → Nat) (x : α) (xs : List α)
    (h : ∀ y ∈ x :: xs, f y = g y) : pyMinBy f x xs = pyMinBy g x xs := by
  induction xs generalizing x with
  | nil => simp [pyMinBy]
  | cons y ys ih =>
    simp only [pyMinBy, List.foldl_cons] at *
    have hx := h x (List.mem_cons_self _ _)
    have hy := h y (List.mem_cons_of_mem _ (List.mem_cons_self _ _))
    have heq : (if f y < f x then y else x) = (if g y < g x then y else x) := by
      rw [hx, hy]
    rw [heq]
    apply ih
    intro z hz
    rcases List.mem_cons.mp hz with h1 | h1
    · subst h1
      split <;> [exact hy; exact hx]
    · exact h z (List.mem_cons_of_mem _ (List.mem_cons_of_mem _ h1))

end PyMin

section Router

variable {α : Type} [DecidableEq α] (nbrs : α → List α) (pl : List (Packet α))
variable (p : Packet α)

theorem adaptive_blocked (h : filteredNeighbors nbrs p = []) :
    adaptive_next_hop nbrs pl p =
      ({ p with blocked_steps := p.blocked_steps + 1 }, p.current) := by
  unfold adaptive_next_hop
  rw [h]

theorem adaptive_cons {x : α} {xs : List α} (h : filteredNeighbors nbrs p = x :: xs) :
    adaptive_next_hop nbrs pl p = (p, pyMinBy (fun v => congestion pl v) x xs) := by
  unfold adaptive_next_hop
  rw [h]

theorem mem_filteredNeighbors {v : α} :
    v ∈ filteredNeighbors nbrs p ↔ v ∈ nbrs p.current ∧ v ∉ p.path := by
  simp [filteredNeighbors]

theorem adaptive_hop_mem {x : α} {xs : List α} (h : filteredNeighbors nbrs p = x :: xs) :
    (adaptive_next_hop nbrs pl p).2 ∈ filteredNeighbors nbrs p := by
  rw [adaptive_cons nbrs pl p h, h]
  exact pyMinBy_mem _ x xs

/-- The returned hop is the current node or one of its neighbors. -/
theorem adaptive_hop_cases :
    (adaptive_next_hop nbrs pl p).2 = p.current ∨
      (adaptive_next_hop nbrs pl p).2 ∈ nbrs p.current := by
  cases hf : filteredNeighbors nbrs p with
  | nil => left; rw [adaptive_blocked nbrs pl p hf]
  | cons x xs =>
    right
    have := adaptive_hop_mem nbrs pl p hf
    exact ((mem_filteredNeighbors nbrs p).mp this).1

theorem countP_eraseIdx {β : Type} (f : β → Bool) :
    ∀ (l : List β) (i : Nat) (b : β), l[i]? = some b →
      l.countP f = (l.eraseIdx i).countP f + (if f b then 1 else 0) := by
  intro l
  induction l with
  | nil => intro i b h; simp at h
  | cons a as ih =>
    intro i b h
    cases i with
    | zero =>
      simp only [List.getElem?_cons_zero, Option.some.injEq] at h
      subst h
      simp [List.countP_cons, List.eraseIdx]
    | succ n =>
      simp only [List.getElem?_cons_succ] at h
      simp only [List.eraseIdx, List.countP_cons, ih n b h]
      omega

/-- As long as the routed packet does not itself sit at `v`, counting all
packets at `v` (what the code does) equals counting the other packets
at `v` (what the spec says). -/
theorem congestion_eq_except {i : Nat} (hp : pl[i]? = some p) {v : α}
    (hv : p.current ≠ v) : congestion pl v = congestionExceptAt pl i v := by
  have h := countP_eraseIdx (fun q => decide (q.current = v) && !q.completed) pl i p hp
  simp only [congestion, congestionExceptAt] at *
  rw [h]
  simp [hv]

end Router

section RouterClaims

/-- C2: for every packet whose filtered neighbor set is non-empty, the
router leaves the packet untouched and returns the filtered neighbor
minimizing the count of other, not-yet-completed packets currently at
that neighbor, ties broken by the first minimizer in neighbor
enumeration order (witnessed by `List.find?` locating the returned hop
as the first key-minimal element). -/
theorem C2_router_returns_first_least_congested (α : Type) [DecidableEq α]
    (nbrs : α → List α) (pl : List (Packet α)) (i : Nat) (p : Packet α)
    (hp : pl[i]? = some p) (hcur : p.current ∈ p.path)
    (hne : filteredNeighbors nbrs p ≠ []) :
    (adaptive_next_hop nbrs pl p).1 = p ∧
    (adaptive_next_hop nbrs pl p).2 ∈ filteredNeighbors nbrs p ∧
    (∀ v ∈ filteredNeighbors nbrs p,
      congestionExceptAt pl i (adaptive_next_hop nbrs pl p).2 ≤ congestionExceptAt pl i v) ∧
    (filteredNeighbors nbrs p).find?
        (fun v => congestionExceptAt pl i v ≤
          congestionExceptAt pl i (adaptive_next_hop nbrs pl p).2) =
      some (adaptive_next_hop nbrs pl p).2 := by
  obtain ⟨x, xs, hfe⟩ : ∃ x xs, filteredNeighbors nbrs p = x :: xs := by
    cases hcase : filteredNeighbors nbrs p with
    | nil => exact absurd hcase hne
    | cons a as => exact ⟨a, as, rfl⟩
  have hagree : ∀ v ∈ x :: xs, congestion pl v = congestionExceptAt pl i v := by
    intro v hv
    have hvf : v ∈ filteredNeighbors nbrs p := by rw [hfe]; exact hv
    have hvp : v ∉ p.path := ((mem_filteredNeighbors nbrs p).mp hvf).2
    have hvc : p.current ≠ v := fun hEq => hvp (hEq ▸ hcur)
    exact congestion_eq_except pl p hp hvc
  have hcongr : pyMinBy (fun v => congestion pl v) x xs =
      pyMinBy (fun v => congestionExceptAt pl i v) x xs :=
    pyMinBy_congr _ _ x xs hagree
  rw [adaptive_cons nbrs pl p hfe]
  refine ⟨rfl, ?_, ?_, ?_⟩
  · rw [hfe]
    exact pyMinBy_mem _ x xs
  · intro v hv
    rw [hfe] at hv
    have h := pyMinBy_le (fun v => congestionExceptAt pl i v) x xs v hv
    simpa [hcongr] using h
  · rw [hfe]
    simp only [hcongr]
    exact pyMinBy_first (fun v => congestionExceptAt pl i v) x xs

/-- C2 witness: a concrete two-packet scenario on the 2x2 mesh where the
router, routing the first packet from (0,0), picks (0,1) because the
other packet occupies (1,0). -/
theorem C2_router_returns_first_least_congested_witness :
    [((0 : Nat), (0 : Nat))] = (mkPacket ((0 : Nat), (0 : Nat)) (1, 1)).path ∧
    filteredNeighbors (meshNeighbors 2) (mkPacket ((0 : Nat), (0 : Nat)) (1, 1)) ≠ [] ∧
    (adaptive_next_hop (meshNeighbors 2)
        [mkPacket ((0 : Nat), (0 : Nat)) (1, 1),
          { mkPacket ((1 : Nat), (0 : Nat)) (1, 1) with current := (1, 0) }]
        (mkPacket ((0 : Nat), (0 : Nat)) (1, 1))).2 = (0, 1) := by
  refine ⟨by decide, by decide, ?_⟩
  have h := C2_router_returns_first_least_congested (Nat × Nat)
    (meshNeighbors 2)
    [mkPacket ((0 : Nat), (0 : Nat)) (1, 1),
      { mkPacket ((1 : Nat), (0 : Nat)) (1, 1) with current := (1, 0) }]
    0 (mkPacket ((0 : Nat), (0 : Nat)) (1, 1)) (by decide) (by decide) (by decide)
  obtain ⟨-, -, -, hfind⟩ := h
  revert hfind
  decide

/-- C4: the router increments `blocked_steps` (by exactly one) precisely
when it returns the packet's current node, which happens precisely when
the filtered neighbor set is empty; on a non-empty filtered set the
packet is returned unchanged and the hop differs from the current
node. -/
theorem C4_blocked_increment_iff_no_progress (α : Type) [DecidableEq α]
    (nbrs : α → List α) (pl : List (Packet α)) (p : Packet α)
    (hcur : p.current ∈ p.path) :
    ((adaptive_next_hop nbrs pl p).2 = p.current ↔ filteredNeighbors nbrs p = []) ∧
    ((adaptive_next_hop nbrs pl p).1.blocked_steps = p.blocked_steps + 1 ↔
      (adaptive_next_hop nbrs pl p).2 = p.current) ∧
    (filteredNeighbors nbrs p = [] →
      adaptive_next_hop nbrs pl p =
        ({ p with blocked_steps := p.blocked_steps + 1 }, p.current)) ∧
    (filteredNeighbors nbrs p ≠ [] → (adaptive_next_hop nbrs pl p).1 = p) := by
  cases hf : filteredNeighbors nbrs p with
  | nil =>
    rw [adaptive_blocked nbrs pl p hf]
    refine ⟨by simp, by simp, fun _ => rfl, ?_⟩
    intro hcon
    exact absurd rfl hcon
  | cons x xs =>
    rw [adaptive_cons nbrs pl p hf]
    have hmem : pyMinBy (fun v => congestion pl v) x xs ∈ x :: xs := pyMinBy_mem _ x xs
    have hnc : pyMinBy (fun v => congestion pl v) x xs ≠ p.current := by
      intro hEq
      have hvf : pyMinBy (fun v => congestion pl v) x xs ∈ filteredNeighbors nbrs p := by
        rw [hf]; exact hmem
      have hvp := ((mem_filteredNeighbors nbrs p).mp hvf).2
      exact hvp (hEq ▸ hcur)
    refine ⟨⟨fun h => absurd h hnc, fun h => by simp at h⟩, ?_, ?_, fun _ => rfl⟩
    · constructor
      · intro h; simp at h
      · intro h; exact absurd h hnc
    · intro h; simp at h

/-- C4 witness: on the 2x2 mesh, a packet at (0,0) that has already
visited both neighbors of (0,0) is blocked — the router returns (0,0)
and bumps `blocked_steps` from 0 to 1 — and its filtered neighbor set is
indeed empty. -/
theorem C4_blocked_increment_iff_no_progress_witness :
    ((0 : Nat), (0 : Nat)) ∈
      (Packet.mk ((0 : Nat), (1 : Nat)) (1, 1) (0, 0)
        [(0, 1), (1, 0), (0, 0)] false 0).path ∧
    (adaptive_next_hop (meshNeighbors 2) []
        (Packet.mk ((0 : Nat), (1 : Nat)) (1, 1) (0, 0)
          [(0, 1), (1, 0), (0, 0)] false 0)).2 = (0, 0) ∧
    (adaptive_next_hop (meshNeighbors 2) []
        (Packet.mk ((0 : Nat), (1 : Nat)) (1, 1) (0, 0)
          [(0, 1), (1, 0), (0, 0)] false 0)).1.blocked_steps = 1 := by
  have h := C4_blocked_increment_iff_no_progress (Nat × Nat) (meshNeighbors 2) []
    (Packet.mk ((0 : Nat), (1 : Nat)) (1, 1) (0, 0) [(0, 1), (1, 0), (0, 0)] false 0)
    (by decide)
  refine ⟨by decide, ?_, ?_⟩
  · rw [h.2.2.1 (by decide)]
  · rw [h.2.2.1 (by decide)]

end RouterClaims

section StepLemmas

variable {α : Type} [DecidableEq α] (nbrs : α → List α)

theorem stepOne_length (q : List (Packet α)) (i : Nat) :
    (stepOne nbrs q i).length = q.length := by
  unfold stepOne
  cases h : q[i]? <;> simp

theorem foldl_stepOne_length (L : List Nat) (q : List (Packet α)) :
    (L.foldl (stepOne nbrs) q).length = q.length := by
  induction L generalizing q with
  | nil => rfl
  | cons a as ih => rw [List.foldl_cons, ih, stepOne_length]

theorem stepAll_length (q : List (Packet α)) :
    (stepAll nbrs q).length = q.length :=
  foldl_stepOne_length nbrs _ q

theorem simulate_length (q : List (Packet α)) (t : Nat) :
    (simulate nbrs q t).length = q.length := by
  induction t with
  | zero => rfl
  | succ t ih =>
    show ((stepAll nbrs)^[t + 1] q).length = q.length
    rw [Function.iterate_succ_apply', stepAll_length]
    exact ih

theorem stepOne_of_get (q : List (Packet α)) (i : Nat) (p : Packet α)
    (h : q[i]? = some p) : stepOne nbrs q i = q.set i (routeStep nbrs q p) := by
  unfold stepOne
  rw [h]

theorem stepOne_getElem_ne (q : List (Packet α)) {i j : Nat} (hij : i ≠ j) :
    (stepOne nbrs q i)[j]? = q[j]? := by
  unfold stepOne
  cases h : q[i]? with
  | none => rfl
  | some p => exact List.getElem?_set_ne hij

theorem foldl_stepOne_getElem_ne (L : List Nat) (q : List (Packet α)) {j : Nat}
    (hL : ∀ i ∈ L, i ≠ j) :
    (L.foldl (stepOne nbrs) q)[j]? = q[j]? := by
  induction L generalizing q with
  | nil => rfl
  | cons a as ih =>
    rw [List.foldl_cons, ih _ (fun i hi => hL i (List.mem_cons_of_mem _ hi)),
      stepOne_getElem_ne nbrs q (hL a (List.mem_cons_self _ _))]

/-- The packet at index `j` after one whole loop iteration is exactly the
routed update of the packet at index `j` before it, computed against
some intermediate packet list (the partially updated list the Python
loop exposes to the congestion count). -/
theorem stepAll_getElem (q : List (Packet α)) (j : Nat) (p : Packet α)
    (hp : q[j]? = some p) :
    ∃ m : List (Packet α), (stepAll nbrs q)[j]? = some (routeStep nbrs m p) := by
  have hj : j < q.length := by
    by_contra hcon
    rw [List.getElem?_eq_none (by omega)] at hp
    exact Option.noConfusion hp
  obtain ⟨k, hk⟩ : ∃ k, q.length = j + (k + 1) := ⟨q.length - j - 1, by omega⟩
  refine ⟨(List.range j).foldl (stepOne nbrs) q, ?_⟩
  have hq0 : ((List.range j).foldl (stepOne nbrs) q)[j]? = some p := by
    rw [foldl_stepOne_getElem_ne nbrs (List.range j) q (fun i hi => by
      have := List.mem_range.mp hi; omega)]
    exact hp
  have hq0len : ((List.range j).foldl (stepOne nbrs) q).length = q.length :=
    foldl_stepOne_length nbrs _ q
  rw [stepAll, hk, List.range_add, List.range_succ_eq_map]
  rw [List.foldl_append]
  simp only [List.map_cons, List.foldl_cons]
  rw [foldl_stepOne_getElem_ne nbrs _ _ (fun i hi => by
    simp only [List.map_map, List.mem_map, List.mem_range] at hi
    obtain ⟨a, _, rfl⟩ := hi
    simp only [Function.comp_apply]
    omega)]
  rw [Nat.add_zero, stepOne_of_get nbrs _ j p hq0]
  exact List.getElem?_set_self (by rw [hq0len]; omega)

/-- A completed packet is returned untouched by the loop body. -/
theorem routeStep_of_completed (m : List (Packet α)) (p : Packet α)
    (hc : p.completed = true) : routeStep nbrs m p = p := by
  unfold routeStep
  rw [if_pos hc]

/-- The loop body never decreases `blocked_steps`. -/
theorem routeStep_blocked_mono (m : List (Packet α)) (p : Packet α) :
    p.blocked_steps ≤ (routeStep nbrs m p).blocked_steps := by
  unfold routeStep
  split
  · exact Nat.le_refl _
  · split
    · exact Nat.le_refl _
    · cases hf : filteredNeighbors nbrs p with
      | nil => rw [adaptive_blocked nbrs m p hf]; simp
      | cons x xs => rw [adaptive_cons nbrs m p hf]

/-- The loop body never changes a packet's destination. -/
theorem routeStep_dst (m : List (Packet α)) (p : Packet α) :
    (routeStep nbrs m p).dst = p.dst := by
  unfold routeStep
  split
  · rfl
  · split
    · rfl
    · cases hf : filteredNeighbors nbrs p with
      | nil => rw [adaptive_blocked nbrs m p hf]
      | cons x xs => rw [adaptive_cons nbrs m p hf]

/-- Once completed, a packet is frozen for the rest of the run. -/
theorem completed_frozen (q : List (Packet α)) (j : Nat) (p : Packet α)
    (hp : q[j]? = some p) (hc : p.completed = true) (t : Nat) :
    (simulate nbrs q t)[j]? = some p := by
  induction t with
  | zero => exact hp
  | succ t ih =>
    obtain ⟨m, hm⟩ := stepAll_getElem nbrs _ j p ih
    have hm2 : (stepAll nbrs (simulate nbrs q t))[j]? = some p := by
      rw [hm, routeStep_of_completed nbrs m p hc]
    show ((stepAll nbrs)^[t + 1] q)[j]? = some p
    rw [Function.iterate_succ_apply']
    exact hm2

/-- `blocked_steps` never decreases over a run. -/
theorem blocked_monotone (q : List (Packet α)) (j : Nat) (p : Packet α)
    (hp : q[j]? = some p) (t : Nat) :
    ∃ p2, (simulate nbrs q t)[j]? = some p2 ∧ p.blocked_steps ≤ p2.blocked_steps := by
  induction t with
  | zero => exact ⟨p, hp, Nat.le_refl _⟩
  | succ t ih =>
    obtain ⟨p2, hp2, hle⟩ := ih
    obtain ⟨m, hm⟩ := stepAll_getElem nbrs _ j p2 hp2
    refine ⟨routeStep nbrs m p2, ?_, ?_⟩
    · show ((stepAll nbrs)^[t + 1] q)[j]? = _
      rw [Function.iterate_succ_apply']
      exact hm
    · exact Nat.le_trans hle (routeStep_blocked_mono nbrs m p2)

end StepLemmas

section FreezeClaims

/-- C5: once a packet is completed at some step `k`, its whole state —
in particular `current`, `path` and `completed` — never changes at any
later step `m`; and `blocked_steps` is monotonically non-decreasing
between any two steps of a run. -/
theorem C5_completed_terminal_blocked_monotone (α : Type) [DecidableEq α]
    (nbrs : α → List α) (q : List (Packet α)) (j k m : Nat) (p : Packet α)
    (hkm : k ≤ m) (hp : (simulate nbrs q k)[j]? = some p) :
    (p.completed = true → (simulate nbrs q m)[j]? = some p) ∧
    (∃ p2, (simulate nbrs q m)[j]? = some p2 ∧ p.blocked_steps ≤ p2.blocked_steps) := by
  obtain ⟨d, rfl⟩ : ∃ d, m = d + k := ⟨m - k, by omega⟩
  have hsplit : simulate nbrs q (d + k) = simulate nbrs (simulate nbrs q k) d := by
    simp [simulate, Function.iterate_add_apply]
  rw [hsplit]
  exact ⟨fun hc => completed_frozen nbrs _ j p hp hc d,
    blocked_monotone nbrs _ j p hp d⟩

/-- C5 witness: the single-packet 2x2-mesh run is completed at step 3
and its packet is bit-for-bit unchanged at step 7, with monotone
`blocked_steps`. -/
theorem C5_completed_terminal_blocked_monotone_witness :
    (3 ≤ 7 ∧
      (simulate (meshNeighbors 2) [mkPacket ((0 : Nat), (0 : Nat)) (1, 1)] 3)[0]? =
        some (Packet.mk (0, 0) (1, 1) (1, 1) [(0, 0), (1, 0), (1, 1)] true 0)) ∧
    (simulate (meshNeighbors 2) [mkPacket ((0 : Nat), (0 : Nat)) (1, 1)] 7)[0]? =
      some (Packet.mk (0, 0) (1, 1) (1, 1) [(0, 0), (1, 0), (1, 1)] true 0) := by
  refine ⟨⟨by decide, by decide⟩, ?_⟩
  have h := C5_completed_terminal_blocked_monotone (Nat × Nat) (meshNeighbors 2)
    [mkPacket ((0 : Nat), (0 : Nat)) (1, 1)] 0 3 7
    (Packet.mk (0, 0) (1, 1) (1, 1) [(0, 0), (1, 0), (1, 1)] true 0)
    (by decide) (by decide)
  exact h.1 rfl

/-- The loop body applied to a packet with no admissible neighbor:
position, destination and blockedness are preserved, and, while the
packet is active and short of its destination, `blocked_steps` rises by
exactly one. -/
theorem routeStep_stuck {α : Type} [DecidableEq α] (nbrs : α → List α)
    (m : List (Packet α)) (p : Packet α) (h : filteredNeighbors nbrs p = []) :
    (routeStep nbrs m p).current = p.current ∧
    (routeStep nbrs m p).dst = p.dst ∧
    filteredNeighbors nbrs (routeStep nbrs m p) = [] ∧
    (p.completed = false → p.current ≠ p.dst →
      (routeStep nbrs m p).completed = false ∧
      (routeStep nbrs m p).blocked_steps = p.blocked_steps + 1) := by
  unfold routeStep
  by_cases hc : p.completed = true
  · rw [if_pos hc]
    exact ⟨rfl, rfl, h, fun hcf _ => absurd hc (by rw [hcf]; exact Bool.false_ne_true)⟩
  · rw [if_neg hc]
    by_cases hd : p.current = p.dst
    · rw [if_pos hd]
      refine ⟨rfl, rfl, ?_, fun _ hdn => absurd hd hdn⟩
      rw [filteredNeighbors] at h ⊢
      exact h
    · rw [if_neg hd]
      rw [adaptive_blocked nbrs m p h]
      refine ⟨rfl, rfl, ?_, fun _ _ =>
        ⟨by simp only [Bool.not_eq_true] at hc; exact hc, rfl⟩⟩
      rw [filteredNeighbors, List.filter_eq_nil_iff] at h ⊢
      intro v hv
      have hvp := h v hv
      simp only [decide_eq_true_eq, Decidable.not_not] at hvp ⊢
      exact List.mem_append_left _ hvp

/-- C8: a packet whose filtered neighbor set is empty stays blocked for
the rest of the run: its current node (and destination) never change,
its filtered neighbor set stays empty, and — while it is active and
short of its destination, hence routed every step — `blocked_steps`
grows by exactly one per step, `t` in total after `t` steps. -/
theorem C8_blocked_is_permanent (α : Type) [DecidableEq α]
    (nbrs : α → List α) (q : List (Packet α)) (j : Nat) (p : Packet α)
    (hp : q[j]? = some p) (hb : filteredNeighbors nbrs p = []) (t : Nat) :
    ∃ p2, (simulate nbrs q t)[j]? = some p2 ∧
      p2.current = p.current ∧ p2.dst = p.dst ∧
      filteredNeighbors nbrs p2 = [] ∧
      (p.completed = false → p.current ≠ p.dst →
        p2.completed = false ∧ p2.blocked_steps = p.blocked_steps + t) := by
  induction t with
  | zero => exact ⟨p, hp, rfl, rfl, hb, fun hcf _ => ⟨hcf, rfl⟩⟩
  | succ t ih =>
    obtain ⟨p2, hp2, hcur, hdst, hfil, hcond⟩ := ih
    obtain ⟨m, hm⟩ := stepAll_getElem nbrs _ j p2 hp2
    obtain ⟨hcur2, hdst2, hfil2, hcond2⟩ := routeStep_stuck nbrs m p2 hfil
    refine ⟨routeStep nbrs m p2, ?_, by rw [hcur2, hcur], by rw [hdst2, hdst], hfil2, ?_⟩
    · show ((stepAll nbrs)^[t + 1] q)[j]? = _
      rw [Function.iterate_succ_apply']
      exact hm
    · intro hcf hdn
      obtain ⟨hc2, hb2⟩ := hcond hcf hdn
      have hdn2 : p2.current ≠ p2.dst := by rw [hcur, hdst]; exact hdn
      obtain ⟨hc3, hb3⟩ := hcond2 hc2 hdn2
      exact ⟨hc3, by omega⟩

/-- C8 witness: a packet on the 2x2 mesh that has visited both neighbors
of (0, 0) stays pinned at (0, 0) with `blocked_steps` growing to 4 after
4 steps. -/
theorem C8_blocked_is_permanent_witness :
    filteredNeighbors (meshNeighbors 2)
      (Packet.mk ((0 : Nat), (1 : Nat)) (1, 1) (0, 0)
        [(0, 1), (1, 0), (0, 0)] false 0) = [] ∧
    (∃ p2, (simulate (meshNeighbors 2)
        [Packet.mk ((0 : Nat), (1 : Nat)) (1, 1) (0, 0)
          [(0, 1), (1, 0), (0, 0)] false 0] 4)[0]? = some p2 ∧
      p2.current = (0, 0) ∧ p2.dst = (1, 1) ∧
      filteredNeighbors (meshNeighbors 2) p2 = [] ∧
      (false = false → ((0 : Nat), (0 : Nat)) ≠ ((1 : Nat), (1 : Nat)) →
        p2.completed = false ∧ p2.blocked_steps = 0 + 4)) :=
  ⟨by decide,
    C8_blocked_is_permanent (Nat × Nat) (meshNeighbors 2)
      [Packet.mk ((0 : Nat), (1 : Nat)) (1, 1) (0, 0) [(0, 1), (1, 0), (0, 0)] false 0]
      0
      (Packet.mk ((0 : Nat), (1 : Nat)) (1, 1) (0, 0) [(0, 1), (1, 0), (0, 0)] false 0)
      (by decide) (by decide) 4⟩

end FreezeClaims

section PathShapeClaims

variable {α : Type} [DecidableEq α] (nbrs : α → List α)

/-- The loop body preserves the strengthened path-shape invariant. -/
theorem routeStep_pathShape (m : List (Packet α)) (p : Packet α)
    (hp : PathShapeStrong nbrs p) : PathShapeStrong nbrs (routeStep nbrs m p) := by
  obtain ⟨hlast, d, k, hnd, hdl, hpath, hcond⟩ := hp
  unfold routeStep
  by_cases hc : p.completed = true
  · rw [if_pos hc]
    exact ⟨hlast, d, k, hnd, hdl, hpath, hcond⟩
  · rw [if_neg hc]
    by_cases hd : p.current = p.dst
    · rw [if_pos hd]
      exact ⟨hlast, d, k, hnd, hdl, hpath, hcond⟩
    · rw [if_neg hd]
      cases hf : filteredNeighbors nbrs p with
      | nil =>
        rw [adaptive_blocked nbrs m p hf]
        refine ⟨List.getLast?_concat _, d, k + 1, hnd, hdl, ?_, ?_⟩
        · show p.path ++ [p.current] = d ++ List.replicate (k + 1) p.current
          rw [hpath, List.replicate_succ', ← List.append_assoc]
        · intro _
          show filteredNeighbors nbrs
            (Packet.mk p.src p.dst p.current (p.path ++ [p.current])
              p.completed (p.blocked_steps + 1)) = []
          rw [filteredNeighbors, List.filter_eq_nil_iff]
          rw [filteredNeighbors, List.filter_eq_nil_iff] at hf
          intro v hv
          have hvp := hf v hv
          simp only [decide_eq_true_eq, Decidable.not_not] at hvp ⊢
          exact List.mem_append_left _ hvp
      | cons x xs =>
        rw [adaptive_cons nbrs m p hf]
        have hk : k = 0 := by
          by_contra hk0
          have hfe := hcond (Nat.pos_of_ne_zero hk0)
          rw [hfe] at hf
          exact List.noConfusion hf
        subst hk
        rw [List.replicate_zero, List.append_nil] at hpath
        have hhop : pyMinBy (fun v => congestion m v) x xs ∈ filteredNeighbors nbrs p := by
          rw [hf]
          exact pyMinBy_mem _ x xs
        have hnp : pyMinBy (fun v => congestion m v) x xs ∉ p.path :=
          ((mem_filteredNeighbors nbrs p).mp hhop).2
        refine ⟨List.getLast?_concat _,
          d ++ [pyMinBy (fun v => congestion m v) x xs], 0, ?_,
          List.getLast?_concat _, ?_, ?_⟩
        · rw [List.nodup_append]
          refine ⟨hnd, List.nodup_singleton _, ?_⟩
          intro a ha hb
          rw [List.mem_singleton] at hb
          subst hb
          rw [hpath] at hnp
          exact hnp ha
        · show p.path ++ [pyMinBy (fun v => congestion m v) x xs] =
            (d ++ [pyMinBy (fun v => congestion m v) x xs]) ++ List.replicate 0 _
          rw [List.replicate_zero, List.append_nil, hpath]
        · intro h0
          exact absurd h0 (by omega)

/-- A fresh packet satisfies the strengthened path-shape invariant. -/
theorem fresh_pathShape (p : Packet α) (h1 : p.path = [p.src])
    (h2 : p.current = p.src) : PathShapeStrong nbrs p := by
  refine ⟨?_, [p.src], 0, List.nodup_singleton _, ?_, ?_, fun h0 => absurd h0 (by omega)⟩
  · rw [h1, h2]
    rfl
  · rw [h2]
    rfl
  · rw [h1]
    simp

/-- The strengthened path-shape invariant holds for every packet at
every step of a run started from fresh packets. -/
theorem pathShape_invariant (q : List (Packet α))
    (hq : ∀ p ∈ q, PathShapeStrong nbrs p) (t : Nat) :
    ∀ p2 ∈ simulate nbrs q t, PathShapeStrong nbrs p2 := by
  induction t with
  | zero => exact hq
  | succ t ih =>
    intro p2 hp2
    have hstep : simulate nbrs q (t + 1) = stepAll nbrs (simulate nbrs q t) := by
      simp [simulate, Function.iterate_succ_apply']
    rw [hstep] at hp2
    obtain ⟨j, hj⟩ := List.mem_iff_getElem?.mp hp2
    have hjlen : j < (stepAll nbrs (simulate nbrs q t)).length := by
      by_contra hcon
      rw [List.getElem?_eq_none (by omega)] at hj
      exact Option.noConfusion hj
    have hjlen2 : j < (simulate nbrs q t).length := by
      rw [stepAll_length] at hjlen
      exact hjlen
    obtain ⟨p1, hp1⟩ : ∃ p1, (simulate nbrs q t)[j]? = some p1 :=
      ⟨_, List.getElem?_eq_getElem hjlen2⟩
    obtain ⟨m, hm⟩ := stepAll_getElem nbrs _ j p1 hp1
    have hpe : p2 = routeStep nbrs m p1 := Option.some.inj (hj.symm.trans hm)
    subst hpe
    exact routeStep_pathShape nbrs m p1 (ih p1 (List.mem_iff_getElem?.mpr ⟨j, hp1⟩))

/-- C10: at every step boundary of a run started from fresh packets,
every packet's current node is the last entry of its path, and the path
is a duplicate-free sequence optionally followed by consecutive copies
of its last distinct node (the node the packet is blocked at). -/
theorem C10_path_is_nodup_then_blocked_repeats (α : Type) [DecidableEq α]
    (nbrs : α → List α) (q : List (Packet α))
    (hq : ∀ p ∈ q, p.path = [p.src] ∧ p.current = p.src) (t : Nat) :
    ∀ p2 ∈ simulate nbrs q t, PathShape p2 := by
  intro p2 hp2
  have h := pathShape_invariant nbrs q
    (fun p hp => fresh_pathShape nbrs p (hq p hp).1 (hq p hp).2) t p2 hp2
  obtain ⟨hlast, d, k, hnd, hdl, hpath, -⟩ := h
  exact ⟨hlast, d, k, hnd, hdl, hpath⟩

/-- C10 witness: the fresh single-packet population on the 2x2 mesh
satisfies the hypothesis, and after the full 8 steps every packet's
path has the claimed shape. -/
theorem C10_path_is_nodup_then_blocked_repeats_witness :
    (∀ p ∈ [mkPacket ((0 : Nat), (0 : Nat)) (1, 1)],
      p.path = [p.src] ∧ p.current = p.src) ∧
    (∀ p2 ∈ simulate (meshNeighbors 2) [mkPacket ((0 : Nat), (0 : Nat)) (1, 1)] 8,
      PathShape p2) :=
  ⟨by decide,
    C10_path_is_nodup_then_blocked_repeats (Nat × Nat) (meshNeighbors 2)
      [mkPacket ((0 : Nat), (0 : Nat)) (1, 1)] (by decide) 8⟩

end PathShapeClaims

section RunLengthClaims

/-- C3: the simulation loop executes exactly `n * n * 2` iterations for
every topology kind and packet population — for the hypercube the bound
comes from the slider value, not the 2^n node count (at n = 3 the bound
is 18 while the hypercube has 8 nodes) — and it does not exit early:
in the 2x2-mesh single-packet run every packet is completed after 3
steps, yet the trace still contains all 8 snapshots. -/
theorem C3_loop_runs_exactly_n_sq_times_2 :
    (∀ (t : Topology) (n : Nat) (ps : List (Packet (NodeOf t))),
      (runTrace t n ps).length = n * n * 2) ∧
    (max_steps 3 = 18 ∧ (hcNodes 3).length = 8 ∧ max_steps 3 ≠ (hcNodes 3).length) ∧
    ((simulate (generate_topology Topology.Mesh 2)
        [mkPacket ((0 : Nat), (0 : Nat)) (1, 1)] 3).all (fun p => p.completed) = true ∧
      (runTrace Topology.Mesh 2 [mkPacket ((0 : Nat), (0 : Nat)) (1, 1)]).length = 8) := by
  refine ⟨?_, ⟨rfl, by decide, by decide⟩, by decide, ?_⟩
  · intro t n ps
    simp [runTrace, simTrace, max_steps]
  · show (runTrace Topology.Mesh 2 [mkPacket ((0 : Nat), (0 : Nat)) (1, 1)]).length = 8
    simp [runTrace, simTrace, max_steps]

/-- C6: in the Mesh n=2 scenario with one packet from (0,0) to (1,1),
after 2 steps the path is [(0,0),(1,0),(1,1)] (length 3) with the
current node at the destination, the end-of-run status is "Completed",
and the intermediate node is the first neighbor of (0,0) in enumeration
order, which is one of (0,1) and (1,0) — here (1,0). -/
theorem C6_mesh2_diagonal_scenario :
    (simulate (meshNeighbors 2) [mkPacket ((0 : Nat), (0 : Nat)) (1, 1)] 2)[0]? =
      some (Packet.mk (0, 0) (1, 1) (1, 1) [(0, 0), (1, 0), (1, 1)] false 0) ∧
    ((simulate (meshNeighbors 2) [mkPacket ((0 : Nat), (0 : Nat)) (1, 1)] 2)[0]?.map
      (fun p => p.path.length)) = some 3 ∧
    ((simulate (meshNeighbors 2) [mkPacket ((0 : Nat), (0 : Nat)) (1, 1)] 2)[0]?.map
      (fun p => decide (p.current = p.dst))) = some true ∧
    ((runFinal Topology.Mesh 2 [mkPacket ((0 : Nat), (0 : Nat)) (1, 1)])[0]?.map
      statusOf) = some "Completed" ∧
    (meshNeighbors 2 (0, 0)).head? = some (1, 0) ∧
    ((simulate (meshNeighbors 2) [mkPacket ((0 : Nat), (0 : Nat)) (1, 1)] 2)[0]?.bind
      (fun p => p.path[1]?)) = (meshNeighbors 2 (0, 0)).head? ∧
    (((1 : Nat), (0 : Nat)) = ((0 : Nat), (1 : Nat)) ∨
      ((1 : Nat), (0 : Nat)) = ((1 : Nat), (0 : Nat))) := by
  refine ⟨by decide, by decide, by decide, by decide, by decide, by decide, by decide⟩

end RunLengthClaims

section TopologyLemmas

theorem meshNeighbors_length_eq (n : Nat) (v : Nat × Nat) :
    (meshNeighbors n v).length =
      ((if 1 ≤ v.1 then 1 else 0) + (if v.1 + 1 < n then 1 else 0)) +
      ((if 1 ≤ v.2 then 1 else 0) + (if v.2 + 1 < n then 1 else 0)) := by
  rw [meshNeighbors]
  split_ifs <;> simp

theorem meshNeighbors_nodup (n : Nat) (v : Nat × Nat) : (meshNeighbors n v).Nodup := by
  obtain ⟨i, j⟩ := v
  rw [meshNeighbors]
  dsimp only
  split_ifs <;> simp [Prod.ext_iff] <;> omega

theorem torusNeighbors_length_two (v : Nat × Nat) (h1 : v.1 < 2) (h2 : v.2 < 2) :
    (torusNeighbors 2 v).length = 2 := by
  obtain ⟨i, j⟩ := v
  dsimp only at h1 h2
  interval_cases i <;> interval_cases j <;> decide

theorem torusNeighbors_length_four (n : Nat) (hn : 3 ≤ n) (v : Nat × Nat)
    (h1 : v.1 < n) (h2 : v.2 < n) : (torusNeighbors n v).length = 4 := by
  obtain ⟨i, j⟩ := v
  dsimp only at h1 h2
  rw [torusNeighbors, List.length_append, meshNeighbors_length_eq,
    if_pos (show 2 < n by omega), List.length_append]
  dsimp only
  split_ifs <;> simp <;> omega

theorem mem_ite_singleton {γ : Type} (c : Prop) [Decidable c] (x b : γ) :
    b ∈ (if c then [x] else []) ↔ c ∧ b = x := by
  split_ifs with h <;> simp [h]

theorem mem_ite_ite_singleton {γ : Type} (c1 c2 : Prop) [Decidable c1] [Decidable c2]
    (x y b : γ) :
    b ∈ (if c1 then [x] else if c2 then [y] else []) ↔
      (c1 ∧ b = x) ∨ (¬c1 ∧ c2 ∧ b = y) := by
  split_ifs <;> simp [*]

theorem mem_meshNeighbors_iff (n : Nat) (i j : Nat) (b : Nat × Nat) :
    b ∈ meshNeighbors n (i, j) ↔
      (1 ≤ i ∧ b = (i - 1, j)) ∨ (i + 1 < n ∧ b = (i + 1, j)) ∨
      (1 ≤ j ∧ b = (i, j - 1)) ∨ (j + 1 < n ∧ b = (i, j + 1)) := by
  rw [meshNeighbors]
  dsimp only
  simp only [List.mem_append, mem_ite_singleton, or_assoc]

theorem mem_torusWrap_iff (n : Nat) (i j : Nat) (b : Nat × Nat) :
    b ∈ ((if i = 0 then [(n - 1, j)] else if i = n - 1 then [(0, j)] else []) ++
         (if j = 0 then [(i, n - 1)] else if j = n - 1 then [(i, 0)] else [])) ↔
      ((i = 0 ∧ b = (n - 1, j)) ∨ (¬i = 0 ∧ i = n - 1 ∧ b = (0, j))) ∨
      ((j = 0 ∧ b = (i, n - 1)) ∨ (¬j = 0 ∧ j = n - 1 ∧ b = (i, 0))) := by
  simp only [List.mem_append, mem_ite_ite_singleton]

theorem torusNeighbors_nodup (n : Nat) (v : Nat × Nat) (h1 : v.1 < n) (h2 : v.2 < n) :
    (torusNeighbors n v).Nodup := by
  obtain ⟨i, j⟩ := v
  dsimp only at h1 h2
  rw [torusNeighbors]
  by_cases hn : 2 < n
  swap
  · rw [if_neg hn, List.append_nil]
    exact meshNeighbors_nodup n _
  rw [if_pos hn, List.nodup_append]
  refine ⟨meshNeighbors_nodup n _, ?_, ?_⟩
  · split_ifs <;> simp [Prod.ext_iff] <;> omega
  · intro a ha hw
    have hm := (mem_meshNeighbors_iff n i j a).mp ha
    have hww := (mem_torusWrap_iff n i j a).mp hw
    rcases hm with ⟨hc, rfl⟩ | ⟨hc, rfl⟩ | ⟨hc, rfl⟩ | ⟨hc, rfl⟩ <;>
      rcases hww with (⟨hd, he⟩ | ⟨hd, hd2, he⟩) | (⟨hd, he⟩ | ⟨hd, hd2, he⟩) <;>
      (simp only [Prod.mk.injEq] at he; omega)

theorem flipAt_length (x : List Bool) (i : Nat) : (flipAt x i).length = x.length := by
  induction x generalizing i with
  | nil => rfl
  | cons b bs ih =>
    cases i with
    | zero => rfl
    | succ i => simp [flipAt, ih]

theorem flipAt_getElem_self : ∀ (x : List Bool) (i : Nat), i < x.length →
    (flipAt x i)[i]? = (x[i]?).map (fun b => !b) := by
  intro x
  induction x with
  | nil => intro i h; simp at h
  | cons b bs ih =>
    intro i h
    cases i with
    | zero => simp [flipAt]
    | succ i =>
      simp only [flipAt, List.getElem?_cons_succ]
      exact ih i (by simpa using h)

theorem flipAt_getElem_ne : ∀ (x : List Bool) (i j : Nat), i ≠ j →
    (flipAt x i)[j]? = x[j]? := by
  intro x
  induction x with
  | nil => intro i j _; rfl
  | cons b bs ih =>
    intro i j hij
    cases i with
    | zero =>
      cases j with
      | zero => exact absurd rfl hij
      | succ j => simp [flipAt]
    | succ i =>
      cases j with
      | zero => simp [flipAt]
      | succ j =>
        simp only [flipAt, List.getElem?_cons_succ]
        exact ih i j (by omega)

theorem hcNeighbors_length (x : List Bool) : (hcNeighbors x).length = x.length := by
  simp [hcNeighbors]

theorem mem_hcNeighbors (x y : List Bool) :
    y ∈ hcNeighbors x ↔ ∃ i, i < x.length ∧ flipAt x i = y := by
  simp [hcNeighbors, List.mem_map, List.mem_range]

theorem hcNeighbors_nodup (x : List Bool) : (hcNeighbors x).Nodup := by
  rw [hcNeighbors]
  refine List.Nodup.map_on ?_ (List.nodup_range _)
  intro i hi j hj hEq
  by_contra hne
  have h1 := flipAt_getElem_self x i (List.mem_range.mp hi)
  have h2 := flipAt_getElem_ne x j i (fun h => hne h.symm)
  rw [hEq, h2] at h1
  obtain ⟨b, hb⟩ : ∃ b, x[i]? = some b :=
    ⟨_, List.getElem?_eq_getElem (List.mem_range.mp hi)⟩
  rw [hb] at h1
  simp at h1

theorem mem_hcNodes : ∀ (n : Nat) (x : List Bool), x ∈ hcNodes n ↔ x.length = n := by
  intro n
  induction n with
  | zero =>
    intro x
    simp [hcNodes, List.length_eq_zero]
  | succ n ih =>
    intro x
    rw [hcNodes, List.mem_flatMap]
    constructor
    · rintro ⟨a, ha, hx⟩
      have hal := (ih a).mp ha
      simp only [List.mem_cons, List.mem_singleton, List.not_mem_nil, or_false] at hx
      rcases hx with h | h <;> (subst h; simp [hal])
    · intro hl
      cases x with
      | nil => simp at hl
      | cons b bs =>
        refine ⟨bs, (ih bs).mpr (by simpa using hl), ?_⟩
        cases b <;> simp

theorem hcNodes_length (n : Nat) : (hcNodes n).length = 2 ^ n := by
  induction n with
  | zero => rfl
  | succ n ih =>
    rw [hcNodes, List.length_flatMap]
    have h : List.map (List.length ∘ fun x => [false :: x, true :: x]) (hcNodes n) =
        List.replicate (hcNodes n).length 2 := by
      rw [← List.map_const']
      apply List.map_congr_left
      intro a _
      rfl
    rw [h, List.sum_replicate, smul_eq_mul, ih, Nat.pow_succ]

theorem mem_gridNodes (n : Nat) (v : Nat × Nat) :
    v ∈ gridNodes n ↔ v.1 < n ∧ v.2 < n := by
  obtain ⟨i, j⟩ := v
  simp [gridNodes, List.mem_flatMap, List.mem_map, List.mem_range, eq_comm]

theorem gridNodes_length (n : Nat) : (gridNodes n).length = n * n := by
  rw [gridNodes, List.length_flatMap]
  have h : List.map (List.length ∘ fun i => (List.range n).map (fun j => (i, j)))
      (List.range n) = List.replicate n n := by
    rw [show List.replicate n n = List.replicate (List.range n).length n by
      rw [List.length_range]]
    rw [← List.map_const']
    apply List.map_congr_left
    intro a _
    simp
  rw [h, List.sum_replicate, smul_eq_mul]

end TopologyLemmas

section Connectivity

theorem mesh_step_down (n : Nat) (i j : Nat) (h : i + 1 < n) :
    (i + 1, j) ∈ meshNeighbors n (i, j) := by
  rw [meshNeighbors]
  dsimp only
  rw [if_pos h]
  exact List.mem_append_left _ (List.mem_append_left _
    (List.mem_append_right _ (List.mem_singleton_self _)))

theorem mesh_step_right (n : Nat) (i j : Nat) (h : j + 1 < n) :
    (i, j + 1) ∈ meshNeighbors n (i, j) := by
  rw [meshNeighbors]
  dsimp only
  rw [if_pos h]
  exact List.mem_append_right _ (List.mem_singleton_self _)

theorem mesh_step_up (n : Nat) (i j : Nat) :
    (i, j) ∈ meshNeighbors n (i + 1, j) := by
  rw [meshNeighbors]
  dsimp only
  rw [if_pos (show 1 ≤ i + 1 by omega), Nat.add_sub_cancel]
  exact List.mem_append_left _ (List.mem_append_left _
    (List.mem_append_left _ (List.mem_singleton_self _)))

theorem mesh_step_left (n : Nat) (i j : Nat) :
    (i, j) ∈ meshNeighbors n (i, j + 1) := by
  rw [meshNeighbors]
  dsimp only
  rw [if_pos (show 1 ≤ j + 1 by omega), Nat.add_sub_cancel]
  exact List.mem_append_left _ (List.mem_append_right _ (List.mem_singleton_self _))

theorem mesh_reach_origin (n : Nat) (i j : Nat) :
    Reaches (meshNeighbors n) (i, j) (0, 0) := by
  have hleft : ∀ j2, Reaches (meshNeighbors n) (i, j2) (i, 0) := by
    intro j2
    induction j2 with
    | zero => exact Relation.ReflTransGen.refl
    | succ j2 ih => exact Relation.ReflTransGen.head (mesh_step_left n i j2) ih
  have hup : ∀ i2, Reaches (meshNeighbors n) (i2, 0) (0, 0) := by
    intro i2
    induction i2 with
    | zero => exact Relation.ReflTransGen.refl
    | succ i2 ih => exact Relation.ReflTransGen.head (mesh_step_up n i2 0) ih
  exact (hleft j).trans (hup i)

theorem mesh_reach_from_origin (n : Nat) (i j : Nat) (hi : i < n) (hj : j < n) :
    Reaches (meshNeighbors n) (0, 0) (i, j) := by
  have hdown : ∀ i2, i2 < n → Reaches (meshNeighbors n) (0, 0) (i2, 0) := by
    intro i2
    induction i2 with
    | zero => exact fun _ => Relation.ReflTransGen.refl
    | succ i2 ih =>
      intro h
      exact Relation.ReflTransGen.tail (ih (by omega)) (mesh_step_down n i2 0 h)
  have hright : ∀ j2, j2 < n → Reaches (meshNeighbors n) (i, 0) (i, j2) := by
    intro j2
    induction j2 with
    | zero => exact fun _ => Relation.ReflTransGen.refl
    | succ j2 ih =>
      intro h
      exact Relation.ReflTransGen.tail (ih (by omega)) (mesh_step_right n i j2 h)
  exact (hdown i hi).trans (hright j hj)

theorem mesh_connected (n : Nat) (a b : Nat × Nat) (hb1 : b.1 < n) (hb2 : b.2 < n) :
    Reaches (meshNeighbors n) a b := by
  obtain ⟨i, j⟩ := a
  obtain ⟨k, l⟩ := b
  exact (mesh_reach_origin n i j).trans (mesh_reach_from_origin n k l hb1 hb2)

theorem torus_connected (n : Nat) (a b : Nat × Nat) (hb1 : b.1 < n) (hb2 : b.2 < n) :
    Reaches (torusNeighbors n) a b := by
  refine Relation.ReflTransGen.mono ?_ (mesh_connected n a b hb1 hb2)
  intro x y h
  exact List.mem_append_left _ h

theorem hc_step (x : List Bool) (i : Nat) (h : i < x.length) :
    flipAt x i ∈ hcNeighbors x := by
  rw [hcNeighbors]
  exact List.mem_map_of_mem _ (List.mem_range.mpr h)

theorem hc_reach_lift (a : Bool) (x y : List Bool) (h : Reaches hcNeighbors x y) :
    Reaches hcNeighbors (a :: x) (a :: y) := by
  induction h with
  | refl => exact Relation.ReflTransGen.refl
  | tail hxy hstep ih =>
    obtain ⟨i, hi, hflip⟩ := (mem_hcNeighbors _ _).mp hstep
    refine Relation.ReflTransGen.tail ih ?_
    rw [← hflip]
    show flipAt (a :: _) (i + 1) ∈ hcNeighbors (a :: _)
    exact hc_step _ (i + 1) (by simp; omega)

theorem hc_connected : ∀ (x y : List Bool), x.length = y.length →
    Reaches hcNeighbors x y := by
  intro x
  induction x with
  | nil =>
    intro y h
    cases y with
    | nil => exact Relation.ReflTransGen.refl
    | cons c ys => simp at h
  | cons a bs ih =>
    intro y h
    cases y with
    | nil => simp at h
    | cons c ys =>
      have hlen : bs.length = ys.length := by simpa using h
      have h1 : Reaches hcNeighbors (a :: bs) (a :: ys) := hc_reach_lift a bs ys (ih ys hlen)
      by_cases hac : a = c
      · subst hac
        exact h1
      · refine h1.tail ?_
        have hcn : c = !a := by cases a <;> cases c <;> simp_all
        rw [hcn]
        exact hc_step (a :: ys) 0 (by simp)

end Connectivity

section TopologyClaims

/-- C1 counterexample: at n = 2 the torus built by the code has no
wrap-around edges (networkx adds them only for dimension size > 2, since
at size 2 they would duplicate the grid edges), so torus node (0,0) has
exactly 2 neighbors, not 4 as the claim states for every valid n. -/
theorem C1_counterexample_torus_n2_degree :
    torusNeighbors 2 (0, 0) = [(1, 0), (0, 1)] ∧
    (torusNeighbors 2 (0, 0)).length ≠ 4 := by
  constructor <;> decide

/-- C1 amended: for n ≥ 2, all three generated graphs are connected, and
degrees match the adjacency rules — mesh corners 2 and interior nodes 4;
torus nodes degree 4 when n ≥ 3 but degree 2 when n = 2 (the wrap-around
edges coincide with grid edges and networkx omits them); hypercube nodes
degree n — with duplicate-free neighbor lists, so lengths are exact
neighbor counts. -/
theorem C1_topologies_connected_degrees (n : Nat) (hn : 2 ≤ n) :
    (∀ a b : Nat × Nat, b.1 < n → b.2 < n → Reaches (meshNeighbors n) a b) ∧
    (∀ a b : Nat × Nat, b.1 < n → b.2 < n → Reaches (torusNeighbors n) a b) ∧
    (∀ x y : List Bool, x.length = n → y.length = n → Reaches hcNeighbors x y) ∧
    ((meshNeighbors n (0, 0)).length = 2 ∧
      (meshNeighbors n (0, n - 1)).length = 2 ∧
      (meshNeighbors n (n - 1, 0)).length = 2 ∧
      (meshNeighbors n (n - 1, n - 1)).length = 2) ∧
    (∀ i j, 1 ≤ i → i + 1 < n → 1 ≤ j → j + 1 < n →
      (meshNeighbors n (i, j)).length = 4) ∧
    (n = 2 → ∀ v : Nat × Nat, v.1 < n → v.2 < n → (torusNeighbors n v).length = 2) ∧
    (3 ≤ n → ∀ v : Nat × Nat, v.1 < n → v.2 < n → (torusNeighbors n v).length = 4) ∧
    (∀ x : List Bool, x.length = n → (hcNeighbors x).length = n) ∧
    (∀ v : Nat × Nat, (meshNeighbors n v).Nodup) ∧
    (∀ v : Nat × Nat, v.1 < n → v.2 < n → (torusNeighbors n v).Nodup) ∧
    (∀ x : List Bool, (hcNeighbors x).Nodup) := by
  refine ⟨fun a b hb1 hb2 => mesh_connected n a b hb1 hb2,
    fun a b hb1 hb2 => torus_connected n a b hb1 hb2,
    fun x y hx hy => hc_connected x y (by rw [hx, hy]),
    ?_, ?_, ?_,
    fun h3 v h1 h2 => torusNeighbors_length_four n h3 v h1 h2,
    fun x hx => by rw [hcNeighbors_length, hx],
    fun v => meshNeighbors_nodup n v,
    fun v h1 h2 => torusNeighbors_nodup n v h1 h2,
    fun x => hcNeighbors_nodup x⟩
  · refine ⟨?_, ?_, ?_, ?_⟩ <;>
      (rw [meshNeighbors_length_eq]; dsimp only; split_ifs <;> omega)
  · intro i j h1 h2 h3 h4
    rw [meshNeighbors_length_eq]
    dsimp only
    split_ifs <;> omega
  · rintro rfl v h1 h2
    exact torusNeighbors_length_two v h1 h2

/-- C1 witness: the amended statement instantiated at n = 3 — an
interior torus node has 4 neighbors and the mesh corner has 2. -/
theorem C1_topologies_connected_degrees_witness :
    2 ≤ 3 ∧ (torusNeighbors 3 (1, 1)).length = 4 ∧
      (meshNeighbors 3 (0, 0)).length = 2 :=
  ⟨by decide,
    (C1_topologies_connected_degrees 3 (by decide)).2.2.2.2.2.2.1 (by decide)
      (1, 1) (by decide) (by decide),
    (C1_topologies_connected_degrees 3 (by decide)).2.2.2.1.1⟩

/-- C7: the simulation raises no runtime errors under valid inputs: the
router is total and returns the current node or a true neighbor (the
Python `min` is only taken on a non-empty list by construction), and for
every topology kind and n ≥ 2 the node list offers at least the 2
distinct nodes `random.sample(list(G.nodes()), 2)` requires. -/
theorem C7_no_runtime_errors :
    (∀ (α : Type) [DecidableEq α] (nbrs : α → List α)
        (pl : List (Packet α)) (p : Packet α),
      (adaptive_next_hop nbrs pl p).2 = p.current ∨
        (adaptive_next_hop nbrs pl p).2 ∈ nbrs p.current) ∧
    (∀ (t : Topology) (n : Nat), 2 ≤ n → 2 ≤ (nodesOf t n).length) := by
  constructor
  · intro α inst nbrs pl p
    exact adaptive_hop_cases nbrs pl p
  · intro t n hn
    cases t
    · show 2 ≤ (gridNodes n).length
      rw [gridNodes_length]
      exact Nat.le_trans (by omega) (Nat.mul_le_mul hn hn)
    · show 2 ≤ (gridNodes n).length
      rw [gridNodes_length]
      exact Nat.le_trans (by omega) (Nat.mul_le_mul hn hn)
    · show 2 ≤ (hcNodes n).length
      rw [hcNodes_length]
      have h := Nat.pow_le_pow_right (show 0 < 2 by omega) (show 1 ≤ n by omega)
      simpa using h

/-- C7 witness: the hypercube at n = 2 has at least 2 nodes. -/
theorem C7_no_runtime_errors_witness :
    2 ≤ 2 ∧ 2 ≤ (nodesOf Topology.Hypercube 2).length :=
  ⟨by decide, C7_no_runtime_errors.2 Topology.Hypercube 2 (by decide)⟩

end TopologyClaims

section FinalIterationClaims

theorem meshNeighbors_closed (n : Nat) (a b : Nat × Nat) (ha1 : a.1 < n)
    (ha2 : a.2 < n) (hb : b ∈ meshNeighbors n a) : b.1 < n ∧ b.2 < n := by
  obtain ⟨i, j⟩ := a
  dsimp only at ha1 ha2
  rcases (mem_meshNeighbors_iff n i j b).mp hb with
    ⟨h, rfl⟩ | ⟨h, rfl⟩ | ⟨h, rfl⟩ | ⟨h, rfl⟩ <;>
    exact ⟨by dsimp only; omega, by dsimp only; omega⟩

theorem torusNeighbors_closed (n : Nat) (a b : Nat × Nat) (ha1 : a.1 < n)
    (ha2 : a.2 < n) (hb : b ∈ torusNeighbors n a) : b.1 < n ∧ b.2 < n := by
  obtain ⟨i, j⟩ := a
  dsimp only at ha1 ha2
  rw [torusNeighbors] at hb
  rcases List.mem_append.mp hb with h | h
  · exact meshNeighbors_closed n (i, j) b ha1 ha2 h
  · by_cases hn : 2 < n
    · rw [if_pos hn] at h
      rcases (mem_torusWrap_iff n i j b).mp h with
        (⟨_, rfl⟩ | ⟨_, _, rfl⟩) | (⟨_, rfl⟩ | ⟨_, _, rfl⟩) <;>
        exact ⟨by dsimp only; omega, by dsimp only; omega⟩
    · rw [if_neg hn] at h
      exact absurd h (List.not_mem_nil b)

theorem hcNeighbors_closed (x y : List Bool) (h : y ∈ hcNeighbors x) :
    y.length = x.length := by
  obtain ⟨i, hi, hflip⟩ := (mem_hcNeighbors x y).mp h
  rw [← hflip]
  exact flipAt_length x i

/-- Every topology's neighbor map stays inside its node list. -/
theorem nodes_closed (t : Topology) (n : Nat) :
    ∀ v ∈ nodesOf t n, ∀ w ∈ generate_topology t n v, w ∈ nodesOf t n := by
  cases t
  · intro v hv w hw
    simp only [nodesOf] at hv ⊢
    simp only [generate_topology] at hw
    rw [mem_gridNodes] at hv ⊢
    exact meshNeighbors_closed n v w hv.1 hv.2 hw
  · intro v hv w hw
    simp only [nodesOf] at hv ⊢
    simp only [generate_topology] at hw
    rw [mem_gridNodes] at hv ⊢
    exact torusNeighbors_closed n v w hv.1 hv.2 hw
  · intro v hv w hw
    simp only [nodesOf] at hv ⊢
    simp only [generate_topology] at hw
    rw [mem_hcNodes] at hv ⊢
    rw [hcNeighbors_closed v w hw]
    exact hv

/-- A fresh valid packet starts in the traveling phase. -/
theorem fresh_phase {α : Type} [DecidableEq α] (nbrs : α → List α) (nodes : List α)
    (p : Packet α) (h : FreshAt nodes p) : PhaseInv nbrs nodes 0 p := by
  obtain ⟨hpath, hcur, hcomp, hblk, hsrc, hdst, hne⟩ := h
  right; right; left
  refine ⟨hcomp, by rw [hcur]; exact hne, ?_, ?_, ?_, ?_⟩
  · rw [hpath]
    exact List.nodup_singleton _
  · rw [hpath]
    rfl
  · intro v hv
    rw [hpath, List.mem_singleton] at hv
    subst hv
    exact hsrc
  · rw [hpath, hcur]
    rfl

theorem routeStep_arrive {α : Type} [DecidableEq α] (nbrs : α → List α)
    (m : List (Packet α)) (p : Packet α) (hc : p.completed = false)
    (hd : p.current = p.dst) :
    routeStep nbrs m p = { p with completed := true } := by
  unfold routeStep
  rw [if_neg (by rw [hc]; exact Bool.false_ne_true), if_pos hd]

theorem routeStep_move {α : Type} [DecidableEq α] (nbrs : α → List α)
    (m : List (Packet α)) (p : Packet α) (hc : p.completed = false)
    (hd : p.current ≠ p.dst) {x : α} {xs : List α}
    (hf : filteredNeighbors nbrs p = x :: xs) :
    routeStep nbrs m p =
      Packet.mk p.src p.dst (pyMinBy (fun v => congestion m v) x xs)
        (p.path ++ [pyMinBy (fun v => congestion m v) x xs]) p.completed
        p.blocked_steps := by
  unfold routeStep
  rw [if_neg (by rw [hc]; exact Bool.false_ne_true), if_neg hd,
    adaptive_cons nbrs m p hf]

/-- The phase invariant is preserved by one packet update. -/
theorem routeStep_phase {α : Type} [DecidableEq α] (nbrs : α → List α)
    (nodes : List α) (hclosed : ∀ v ∈ nodes, ∀ w ∈ nbrs v, w ∈ nodes)
    (m : List (Packet α)) (t : Nat) (p : Packet α)
    (hp : PhaseInv nbrs nodes t p) : PhaseInv nbrs nodes (t + 1) (routeStep nbrs m p) := by
  rcases hp with hA | ⟨hc, hd, hf⟩ | ⟨hc, hd, hnd, hlen, hsub, hlast⟩ |
    ⟨hc, hd, hnd, hlen, hsub⟩
  · left
    rw [routeStep_of_completed nbrs m p hA]
    exact hA
  · obtain ⟨hcur2, hdst2, hfil2, hcond2⟩ := routeStep_stuck nbrs m p hf
    obtain ⟨hc3, -⟩ := hcond2 hc hd
    right; left
    refine ⟨hc3, ?_, hfil2⟩
    rw [hcur2, hdst2]
    exact hd
  · cases hfc : filteredNeighbors nbrs p with
    | nil =>
      obtain ⟨hcur2, hdst2, hfil2, hcond2⟩ := routeStep_stuck nbrs m p hfc
      obtain ⟨hc3, -⟩ := hcond2 hc hd
      right; left
      refine ⟨hc3, ?_, hfil2⟩
      rw [hcur2, hdst2]
      exact hd
    | cons x xs =>
      have hmv := routeStep_move nbrs m p hc hd hfc
      have hhop : pyMinBy (fun v => congestion m v) x xs ∈ filteredNeighbors nbrs p := by
        rw [hfc]
        exact pyMinBy_mem _ x xs
      obtain ⟨hhn, hhp⟩ := (mem_filteredNeighbors nbrs p).mp hhop
      have hcurmem : p.current ∈ p.path := List.mem_of_mem_getLast? hlast
      have hcurnodes : p.current ∈ nodes := hsub _ hcurmem
      have hhopnodes : pyMinBy (fun v => congestion m v) x xs ∈ nodes :=
        hclosed _ hcurnodes _ hhn
      have hnd2 : (p.path ++ [pyMinBy (fun v => congestion m v) x xs]).Nodup := by
        rw [List.nodup_append]
        refine ⟨hnd, List.nodup_singleton _, ?_⟩
        intro a ha hb
        rw [List.mem_singleton] at hb
        subst hb
        exact hhp ha
      have hlen2 : (p.path ++ [pyMinBy (fun v => congestion m v) x xs]).length =
          t + 1 + 1 := by
        rw [List.length_append, hlen]
        rfl
      have hsub2 : ∀ v ∈ p.path ++ [pyMinBy (fun v => congestion m v) x xs],
          v ∈ nodes := by
        intro v hv
        rcases List.mem_append.mp hv with h | h
        · exact hsub v h
        · rw [List.mem_singleton] at h
          subst h
          exact hhopnodes
      by_cases harr : pyMinBy (fun v => congestion m v) x xs = p.dst
      · right; right; right
        rw [hmv]
        exact ⟨hc, harr, hnd2, hlen2, hsub2⟩
      · right; right; left
        rw [hmv]
        exact ⟨hc, harr, hnd2, hlen2, hsub2, List.getLast?_concat _⟩
  · left
    rw [routeStep_arrive nbrs m p hc hd]

/-- The phase invariant holds for every packet at every step. -/
theorem phase_invariant {α : Type} [DecidableEq α] (nbrs : α → List α)
    (nodes : List α) (hclosed : ∀ v ∈ nodes, ∀ w ∈ nbrs v, w ∈ nodes)
    (q : List (Packet α)) (hq : ∀ p ∈ q, PhaseInv nbrs nodes 0 p) (t : Nat) :
    ∀ p2 ∈ simulate nbrs q t, PhaseInv nbrs nodes t p2 := by
  induction t with
  | zero => exact hq
  | succ t ih =>
    intro p2 hp2
    have hstep : simulate nbrs q (t + 1) = stepAll nbrs (simulate nbrs q t) := by
      simp [simulate, Function.iterate_succ_apply']
    rw [hstep] at hp2
    obtain ⟨j, hj⟩ := List.mem_iff_getElem?.mp hp2
    have hjlen : j < (stepAll nbrs (simulate nbrs q t)).length := by
      by_contra hcon
      rw [List.getElem?_eq_none (by omega)] at hj
      exact Option.noConfusion hj
    have hjlen2 : j < (simulate nbrs q t).length := by
      rw [stepAll_length] at hjlen
      exact hjlen
    obtain ⟨p1, hp1⟩ : ∃ p1, (simulate nbrs q t)[j]? = some p1 :=
      ⟨_, List.getElem?_eq_getElem hjlen2⟩
    obtain ⟨m, hm⟩ := stepAll_getElem nbrs _ j p1 hp1
    have hpe : p2 = routeStep nbrs m p1 := Option.some.inj (hj.symm.trans hm)
    subst hpe
    exact routeStep_phase nbrs nodes hclosed m t p1
      (ih p1 (List.mem_iff_getElem?.mpr ⟨j, hp1⟩))

/-- In a run at least as long as the node count, every packet sitting at
its destination at run end has been marked completed. -/
theorem no_blocked_at_destination {α : Type} [DecidableEq α] (nbrs : α → List α)
    (nodes : List α) (hclosed : ∀ v ∈ nodes, ∀ w ∈ nbrs v, w ∈ nodes)
    (q : List (Packet α)) (hq : ∀ p ∈ q, FreshAt nodes p) (T : Nat)
    (hT : nodes.length ≤ T) :
    ∀ p2 ∈ simulate nbrs q T, p2.current = p2.dst → p2.completed = true := by
  intro p2 hp2 hcd
  have h := phase_invariant nbrs nodes hclosed q
    (fun p hp => fresh_phase nbrs nodes p (hq p hp)) T p2 hp2
  rcases h with hA | ⟨-, hd, -⟩ | ⟨-, hd, -, -, -, -⟩ | ⟨-, -, hnd, hlen, hsub⟩
  · exact hA
  · exact absurd hcd hd
  · exact absurd hcd hd
  · exfalso
    have hle := (List.subperm_of_subset hnd (fun v hv => hsub v hv)).length_le
    omega

/-- C9 counterexample (the claimed existential is false): under valid
inputs (2 ≤ n ≤ 5, fresh packets with distinct endpoints drawn from the
node set) no run of any topology ends with a packet at its destination
still reported Blocked: a packet never blocked moves to a new node every
step, so its duplicate-free path of length step+1 is bounded by the node
count, which for every valid n is at most max_steps — the last possible
first-arrival is before the final iteration, and the arrival is marked
in a later iteration that still exists. -/
theorem C9_counterexample_no_run_ends_blocked_at_destination :
    ¬ ∃ (t : Topology) (n : Nat) (q : List (Packet (NodeOf t)))
        (p2 : Packet (NodeOf t)),
      2 ≤ n ∧ n ≤ 5 ∧ (∀ p ∈ q, FreshAt (nodesOf t n) p) ∧
      p2 ∈ runFinal t n q ∧ p2.current = p2.dst ∧ statusOf p2 = "Blocked" := by
  rintro ⟨t, n, q, p2, hn2, hn5, hfresh, hmem, hcd, hstat⟩
  have hcomp : p2.completed = true := by
    apply no_blocked_at_destination (generate_topology t n) (nodesOf t n)
      (nodes_closed t n) q hfresh (max_steps n) ?_ p2 hmem hcd
    cases t
    · show (gridNodes n).length ≤ max_steps n
      rw [gridNodes_length, max_steps]
      exact Nat.le_mul_of_pos_right _ (by omega)
    · show (gridNodes n).length ≤ max_steps n
      rw [gridNodes_length, max_steps]
      exact Nat.le_mul_of_pos_right _ (by omega)
    · show (hcNodes n).length ≤ max_steps n
      rw [hcNodes_length, max_steps]
      interval_cases n <;> decide
  rw [statusOf, if_pos hcomp] at hstat
  exact absurd hstat (by decide)

/-- C9 amended: completion is detected one step late — a packet arriving
at its destination stays unmarked at that step boundary and is marked
Completed only when a later iteration observes current = destination
before routing — but under valid inputs (2 ≤ n ≤ 5) no packet can first
reach its destination during the final iteration, so at run end every
packet at its destination reports Completed, never Blocked. -/
theorem C9_completion_marked_one_step_late :
    (∀ (α : Type) [DecidableEq α] (nbrs : α → List α) (m : List (Packet α))
        (p : Packet α),
      (p.completed = false → p.current = p.dst →
        routeStep nbrs m p = { p with completed := true }) ∧
      (p.completed = false → p.current ≠ p.dst →
        (routeStep nbrs m p).completed = false)) ∧
    (∀ (t : Topology) (n : Nat) (q : List (Packet (NodeOf t))),
      2 ≤ n → n ≤ 5 → (∀ p ∈ q, FreshAt (nodesOf t n) p) →
      ∀ p2 ∈ runFinal t n q, p2.current = p2.dst → statusOf p2 = "Completed") := by
  constructor
  · intro α inst nbrs m p
    constructor
    · exact routeStep_arrive nbrs m p
    · intro hc hd
      cases hf : filteredNeighbors nbrs p with
      | nil => exact ((routeStep_stuck nbrs m p hf).2.2.2 hc hd).1
      | cons x xs =>
        rw [routeStep_move nbrs m p hc hd hf]
        exact hc
  · intro t n q hn2 hn5 hfresh p2 hmem hcd
    have hcomp : p2.completed = true := by
      apply no_blocked_at_destination (generate_topology t n) (nodesOf t n)
        (nodes_closed t n) q hfresh (max_steps n) ?_ p2 hmem hcd
      cases t
      · show (gridNodes n).length ≤ max_steps n
        rw [gridNodes_length, max_steps]
        exact Nat.le_mul_of_pos_right _ (by omega)
      · show (gridNodes n).length ≤ max_steps n
        rw [gridNodes_length, max_steps]
        exact Nat.le_mul_of_pos_right _ (by omega)
      · show (hcNodes n).length ≤ max_steps n
        rw [hcNodes_length, max_steps]
        interval_cases n <;> decide
    rw [statusOf, if_pos hcomp]

/-- C9 amended witness: the 2x2-mesh single-packet run satisfies the
hypotheses, and at run end its packet at the destination reports
Completed. -/
theorem C9_completion_marked_one_step_late_witness :
    (2 ≤ 2 ∧ 2 ≤ 5 ∧
      (∀ p ∈ [mkPacket ((0 : Nat), (0 : Nat)) (1, 1)],
        FreshAt (nodesOf Topology.Mesh 2) p)) ∧
    (∀ p2 ∈ runFinal Topology.Mesh 2 [mkPacket ((0 : Nat), (0 : Nat)) (1, 1)],
      p2.current = p2.dst → statusOf p2 = "Completed") :=
  ⟨⟨by decide, by decide, by decide⟩,
    C9_completion_marked_one_step_late.2 Topology.Mesh 2
      [mkPacket ((0 : Nat), (0 : Nat)) (1, 1)] (by decide) (by decide) (by decide)⟩

end FinalIterationClaims

end AMNS
